import Mathlib

/-!
Verification development for the `zeno` 2D rasterization crate.

The repository's visible source is the crate root (`src/lib.rs`), which
documents the public surface (mask rendering, hit testing, path building,
SVG parsing, stroking, traversal) and declares the implementation modules;
the bodies of those modules (`hit_test`, `mask`, `raster`, `stroke`,
`path_builder`, `path_data`, `svg_parser`, `traversal`) are not part of the
visible source.  Accordingly the definitions below are a shallow embedding
modelled from the crate's specification and the crate-root documentation:
each definition's doc comment names the missing module it stands for.  All
coordinates are exact rationals, so the model is executable and decidable on
concrete inputs.
-/

namespace Zeno

/-- Modelled from the spec: the 2D vector / point value type of the missing
`geometry` module (pure value type with standard arithmetic, §6). -/
structure Vector where
  x : ℚ
  y : ℚ
deriving DecidableEq

instance : Add Vector := ⟨fun a b => ⟨a.x + b.x, a.y + b.y⟩⟩

instance : Sub Vector := ⟨fun a b => ⟨a.x - b.x, a.y - b.y⟩⟩

instance : Neg Vector := ⟨fun a => ⟨-a.x, -a.y⟩⟩

/-- Scalar multiple of a vector. -/
def Vector.scale (t : ℚ) (v : Vector) : Vector := ⟨t * v.x, t * v.y⟩

/-- Modelled from the spec: the path command variant of the missing `command`
module — a tagged variant {MoveTo, LineTo, QuadTo, CurveTo, Close} (§3). -/
inductive Command where
  | MoveTo (p : Vector)
  | LineTo (p : Vector)
  | QuadTo (c p : Vector)
  | CurveTo (c1 c2 p : Vector)
  | Close
deriving DecidableEq

/-- Modelled from the spec: the fill rule of the missing `style` module —
NonZero (winding based) or EvenOdd (parity based) (§3, glossary). -/
inductive Fill where
  | NonZero
  | EvenOdd
deriving DecidableEq

/-- Modelled from the spec: stroke cap kinds {Butt, Round, Square} (§4.2). -/
inductive Cap where
  | Butt
  | Round
  | Square
deriving DecidableEq

/-- Modelled from the spec: stroke join kinds {Miter, Round, Bevel} (§4.2). -/
inductive Join where
  | Miter
  | Round
  | Bevel
deriving DecidableEq

/-- Modelled from the spec: the stroke style record of the missing `style`
module — width, join, miter limit, start/end caps, dash pattern and dash
offset (§3, §4.2). -/
structure Stroke where
  width : ℚ
  join : Join
  miter_limit : ℚ
  start_cap : Cap
  end_cap : Cap
  dashes : List ℚ
  offset : ℚ
deriving DecidableEq

/-- Modelled from the crate root: `Stroke::new(width)` builder constructor
with the crate's documented defaults (miter join, butt caps, no dashing). -/
def Stroke.new (w : ℚ) : Stroke :=
  ⟨w, Join.Miter, 4, Cap.Butt, Cap.Butt, [], 0⟩

/-- Builder method: set the join kind. -/
def Stroke.joined (s : Stroke) (j : Join) : Stroke := { s with join := j }

/-- Builder method: set both caps. -/
def Stroke.capped (s : Stroke) (c : Cap) : Stroke :=
  { s with start_cap := c, end_cap := c }

/-- Builder method: set the dash pattern and initial dash offset. -/
def Stroke.dash (s : Stroke) (pat : List ℚ) (off : ℚ) : Stroke :=
  { s with dashes := pat, offset := off }

/-- Modelled from the spec: the polymorphic style {Fill, Stroke} (§3). -/
inductive Style where
  | fill (f : Fill)
  | stroke (s : Stroke)
deriving DecidableEq

/- ### Curve flattening (missing `segment` / `raster` modules) -/

/-- Linear interpolation between two points. -/
def lerpV (a b : Vector) (t : ℚ) : Vector := a + (b - a).scale t

/-- Point on a quadratic Bézier at parameter `t`. -/
def quadPoint (p0 c p1 : Vector) (t : ℚ) : Vector :=
  lerpV (lerpV p0 c t) (lerpV c p1 t) t

/-- Point on a cubic Bézier at parameter `t`. -/
def cubicPoint (p0 c1 c2 p1 : Vector) (t : ℚ) : Vector :=
  lerpV (quadPoint p0 c1 c2 t) (quadPoint c1 c2 p1 t) t

/-- Modelled from the spec: curves are flattened to line segments at a
sub-pixel tolerance (§4.3); the tolerance and subdivision scheme live in the
missing `raster` module, so the model uses a fixed uniform subdivision. -/
def flattenSteps : ℕ := 8

/-- Sample points of a quadratic Bézier after its start point. -/
def quadSamples (p0 c p1 : Vector) : List Vector :=
  (List.range flattenSteps).map fun i =>
    quadPoint p0 c p1 ((i + 1 : ℚ) / (flattenSteps : ℚ))

/-- Sample points of a cubic Bézier after its start point. -/
def cubicSamples (p0 c1 c2 p1 : Vector) : List Vector :=
  (List.range flattenSteps).map fun i =>
    cubicPoint p0 c1 c2 p1 ((i + 1 : ℚ) / (flattenSteps : ℚ))

/-- Modelled from the spec: flattening of a command sequence into polyline
subpaths with a closed flag (missing `raster`/`stroke` modules, §3
"Segment").  A subpath begins at MoveTo and ends at Close or the next
MoveTo/end of sequence. -/
def flattenGo : List Command → Vector → Vector → List Vector →
    List (List Vector × Bool) → List (List Vector × Bool)
  | [], _, _, curPts, acc =>
      acc ++ (if curPts.isEmpty then [] else [(curPts, false)])
  | Command.MoveTo p :: rest, _, _, curPts, acc =>
      flattenGo rest p p [p]
        (acc ++ (if curPts.isEmpty then [] else [(curPts, false)]))
  | Command.LineTo p :: rest, _, st, curPts, acc =>
      flattenGo rest p st (curPts ++ [p]) acc
  | Command.QuadTo c p :: rest, cur, st, curPts, acc =>
      flattenGo rest p st (curPts ++ quadSamples cur c p) acc
  | Command.CurveTo c1 c2 p :: rest, cur, st, curPts, acc =>
      flattenGo rest p st (curPts ++ cubicSamples cur c1 c2 p) acc
  | Command.Close :: rest, _, st, curPts, acc =>
      flattenGo rest st st []
        (acc ++ (if curPts.isEmpty then [] else [(curPts, true)]))

/-- Flattened subpaths of a command list, with closed flags. -/
def flattenSubpaths (cmds : List Command) : List (List Vector × Bool) :=
  flattenGo cmds ⟨0, 0⟩ ⟨0, 0⟩ [] []

/-- Flattened subpaths of a command list as bare polylines (for filling, the
rasterizer treats every subpath as implicitly closed). -/
def flattenCmds (cmds : List Command) : List (List Vector) :=
  (flattenSubpaths cmds).map Prod.fst

/- ### Exact-area coverage (missing `raster` module) -/

/-- Cross product of two vectors (twice the signed triangle area). -/
def crossV (a b : Vector) : ℚ := a.x * b.y - a.y * b.x

/-- Shoelace sum along a vertex list, closing back to the fixed first
vertex `p0`. -/
def shoelaceGo (p0 : Vector) : List Vector → ℚ
  | [] => 0
  | [p] => crossV p p0
  | p :: q :: rest => crossV p q + shoelaceGo p0 (q :: rest)

/-- Twice the signed area of a closed polygon given by its vertex list;
for a self-overlapping polygon this is twice the winding-weighted area. -/
def shoelace : List Vector → ℚ
  | [] => 0
  | p :: rest => shoelaceGo p (p :: rest)

/-- Intersection of segment `s e` with the vertical line `x = a`. -/
def ixX (a : ℚ) (s e : Vector) : Vector :=
  ⟨a, s.y + (e.y - s.y) * ((a - s.x) / (e.x - s.x))⟩

/-- Intersection of segment `s e` with the horizontal line `y = b`. -/
def ixY (b : ℚ) (s e : Vector) : Vector :=
  ⟨s.x + (e.x - s.x) * ((b - s.y) / (e.y - s.y)), b⟩

/-- Output of clipping one directed polygon edge against a half plane. -/
def edgeClip (ins : Vector → Bool) (ix : Vector → Vector → Vector)
    (s e : Vector) : List Vector :=
  if ins e then (if ins s then [e] else [ix s e, e])
  else (if ins s then [ix s e] else [])

/-- Modelled from the spec: one half-plane clipping pass of the exact-area
accumulation in the missing `raster` module (Sutherland–Hodgman form). -/
def clipHalf (ins : Vector → Bool) (ix : Vector → Vector → Vector)
    (pts : List Vector) : List Vector :=
  match pts with
  | [] => []
  | p :: rest =>
      ((p :: rest).zip (rest ++ [p])).flatMap fun se =>
        edgeClip ins ix se.1 se.2

/-- Clip a closed polygon to the axis-aligned box `[x0,x0+1] × [y0,y0+1]`. -/
def clipBox (x0 y0 : ℚ) (pts : List Vector) : List Vector :=
  clipHalf (fun p => decide (y0 ≤ p.y)) (ixY y0)
    (clipHalf (fun p => decide (p.y ≤ y0 + 1)) (ixY (y0 + 1))
      (clipHalf (fun p => decide (p.x ≤ x0 + 1)) (ixX (x0 + 1))
        (clipHalf (fun p => decide (x0 ≤ p.x)) (ixX x0) pts)))

/-- Modelled from the spec: the accumulated signed area of the fill outlines
over one unit pixel whose lower corner is `(x0, y0)` — the per-pixel value of
the analytic (exact-area) accumulation of §4.3, in units of one full pixel. -/
def windingArea (polys : List (List Vector)) (x0 y0 : ℚ) : ℚ :=
  ((polys.map fun pts => shoelace (clipBox x0 y0 pts)).sum) / 2

/-- Rational remainder: `qmod a b = a - b * ⌊a / b⌋`. -/
def qmod (a b : ℚ) : ℚ := a - b * (⌊a / b⌋ : ℤ)

/-- Modelled from the spec: mapping of accumulated signed area to one of 256
discrete coverage levels under the chosen fill rule — NonZero clamps the
magnitude of the summed winding contributions, EvenOdd reduces the running
total modulo 2 before mapping (§4.3). -/
def quantize (rule : Fill) (a : ℚ) : ℕ :=
  match rule with
  | Fill.NonZero => min 255 (Int.toNat ⌊|a| * 255⌋)
  | Fill.EvenOdd =>
      let t := qmod |a| 2
      let t2 := if 1 < t then 2 - t else t
      min 255 (Int.toNat ⌊t2 * 255⌋)

/-- Coverage of the integer pixel `(px, py)` under a fill rule. -/
def coverageAt (polys : List (List Vector)) (rule : Fill) (px py : ℤ) : ℕ :=
  quantize rule (windingArea polys (px : ℚ) (py : ℚ))

/- ### Bounds, placement, formats (missing `geometry` / `mask` modules) -/

/-- Modelled from the spec: axis-aligned bounds of the missing `geometry`
module. -/
structure Bounds where
  minx : ℚ
  miny : ℚ
  maxx : ℚ
  maxy : ℚ
deriving DecidableEq

/-- Extend bounds with one more point. -/
def boundsStep (b : Bounds) (p : Vector) : Bounds :=
  ⟨min b.minx p.x, min b.miny p.y, max b.maxx p.x, max b.maxy p.y⟩

/-- All points of a list of polylines. -/
def pointsOf (polys : List (List Vector)) : List Vector := polys.flatMap id

/-- Modelled from the spec: the tight bounds of the flattened geometry in
device space (§4.3); `none` when there is no geometry at all. -/
def boundsOf (polys : List (List Vector)) : Option Bounds :=
  match pointsOf polys with
  | [] => none
  | p :: rest => some (rest.foldl boundsStep ⟨p.x, p.y, p.x, p.y⟩)

/-- Modelled from the spec: the Placement record — integer offset plus the
trimmed mask dimensions (§3, crate root docs). -/
structure Placement where
  left : ℤ
  top : ℤ
  width : ℕ
  height : ℕ
deriving DecidableEq

/-- Modelled from the spec: pixel formats of the missing `mask` module —
8-bit alpha (1 byte/pixel) and 32-bit subpixel (4 bytes/pixel) (§3, §6). -/
inductive Format where
  | Alpha
  | Subpixel
deriving DecidableEq

/-- Modelled from the spec: `buffer_size(format, w, h)`, the canonical sizing
function for caller-supplied buffers (§6, §8). -/
def Format.buffer_size : Format → ℕ → ℕ → ℕ
  | Format.Alpha, w, h => w * h
  | Format.Subpixel, w, h => w * h * 4

/-- Coverage byte of subpixel channel `c` (0..2 are horizontally offset
accumulations in thirds of a pixel, 3 is the whole-pixel alpha), modelled
from §4.3's per-channel accumulation scheme. -/
def channelCoverage (polys : List (List Vector)) (rule : Fill)
    (x0 y0 : ℚ) (c : ℕ) : ℕ :=
  if c < 3 then quantize rule (windingArea polys (x0 + (c : ℚ) / 3 - 1 / 3) y0)
  else quantize rule (windingArea polys x0 y0)

/-- Modelled from the spec: the mask bytes produced by the scan rasterizer
for a `w × h` grid of pixels whose top-left pixel is `(left, top)`; row
major, top to bottom, 1 byte per pixel (alpha) or 4 (subpixel) (§4.3, §6). -/
def renderBytes (fmt : Format) (polys : List (List Vector)) (rule : Fill)
    (left top : ℤ) (w h : ℕ) : List ℕ :=
  match fmt with
  | Format.Alpha =>
      (List.range (w * h)).map fun k =>
        coverageAt polys rule (left + (k % w : ℕ)) (top + (k / w : ℕ))
  | Format.Subpixel =>
      (List.range (w * h * 4)).map fun k =>
        channelCoverage polys rule
          ((left : ℚ) + ((k / 4) % w : ℕ)) ((top : ℚ) + ((k / 4) / w : ℕ))
          (k % 4)

/-- Modelled from the spec: the scan rasterizer driver (§4.3).  With an
explicit size the placement offset is always `(0,0)` and geometry outside the
box is clipped; without one, the tight integer bounding box of the flattened
geometry determines offset and dimensions, and degenerate dimensions yield an
empty mask with a zero-size placement. -/
def rasterize (fmt : Format) (polys : List (List Vector)) (rule : Fill) :
    Option (ℕ × ℕ) → List ℕ × Placement
  | some (w, h) => (renderBytes fmt polys rule 0 0 w h, ⟨0, 0, w, h⟩)
  | none =>
      match boundsOf polys with
      | none => ([], ⟨0, 0, 0, 0⟩)
      | some b =>
          let l := ⌊b.minx⌋
          let t := ⌊b.miny⌋
          let w := (⌈b.maxx⌉ - l).toNat
          let h := (⌈b.maxy⌉ - t).toNat
          if w = 0 ∨ h = 0 then ([], ⟨0, 0, 0, 0⟩)
          else (renderBytes fmt polys rule l t w h, ⟨l, t, w, h⟩)

/- ### Path builder (missing `path_builder` module) -/

/-- Modelled from the spec: the current point tracked by the path builder
abstraction (end point of the last command; Close returns to the subpath
start). -/
def currentPointGo : List Command → Vector → Vector → Vector
  | [], cur, _ => cur
  | Command.MoveTo p :: r, _, _ => currentPointGo r p p
  | Command.LineTo p :: r, _, st => currentPointGo r p st
  | Command.QuadTo _ p :: r, _, st => currentPointGo r p st
  | Command.CurveTo _ _ p :: r, _, st => currentPointGo r p st
  | Command.Close :: r, _, st => currentPointGo r st st

/-- Current point of a command list (origin for an empty path). -/
def currentPoint (cmds : List Command) : Vector :=
  currentPointGo cmds ⟨0, 0⟩ ⟨0, 0⟩

/-- Builder append: `move_to`. -/
def move_to (cmds : List Command) (p : Vector) : List Command :=
  cmds ++ [Command.MoveTo p]

/-- Builder append: `line_to`. -/
def line_to (cmds : List Command) (p : Vector) : List Command :=
  cmds ++ [Command.LineTo p]

/-- Builder append: `quad_to`. -/
def quad_to (cmds : List Command) (c p : Vector) : List Command :=
  cmds ++ [Command.QuadTo c p]

/-- Builder append: `curve_to`. -/
def curve_to (cmds : List Command) (c1 c2 p : Vector) : List Command :=
  cmds ++ [Command.CurveTo c1 c2 p]

/-- Builder append: `close`. -/
def close (cmds : List Command) : List Command := cmds ++ [Command.Close]

/-- Builder append: `rel_move_to`. -/
def rel_move_to (cmds : List Command) (p : Vector) : List Command :=
  move_to cmds (currentPoint cmds + p)

/-- Builder append: `rel_line_to`. -/
def rel_line_to (cmds : List Command) (p : Vector) : List Command :=
  line_to cmds (currentPoint cmds + p)

/-- Modelled from the spec: the angle value type; `from_degrees` is the
constructor used by both the builder API and the grammar parser. -/
structure Angle where
  degrees : ℚ
deriving DecidableEq

/-- Construct an angle from degrees. -/
def Angle.from_degrees (d : ℚ) : Angle := ⟨d⟩

/-- Modelled from the spec: the arc size flag of the builder API. -/
inductive ArcSize where
  | Small
  | Large
deriving DecidableEq

/-- Modelled from the spec: the arc sweep flag of the builder API. -/
inductive ArcSweep where
  | Positive
  | Negative
deriving DecidableEq

/-- Fixed-iteration rational Newton approximation of a square root (all
numeric kernels of the missing modules are modelled with deterministic
rational approximations). -/
def sqrtGo : ℕ → ℚ → ℚ → ℚ
  | 0, _, x => x
  | n + 1, q, x => sqrtGo n q ((x + q / x) / 2)

/-- Rational square-root approximation (0 on nonpositive input). -/
def ratSqrt (q : ℚ) : ℚ := if q ≤ 0 then 0 else sqrtGo 5 q ((q + 1) / 2)

/-- Truncated rational cosine. -/
def ratCosRad (x : ℚ) : ℚ := 1 - x ^ 2 / 2 + x ^ 4 / 24 - x ^ 6 / 720

/-- Truncated rational sine. -/
def ratSinRad (x : ℚ) : ℚ := x - x ^ 3 / 6 + x ^ 5 / 120

/-- Rotation of a vector by an angle given through its cosine and sine. -/
def rotV (cv sv : ℚ) (v : Vector) : Vector :=
  ⟨cv * v.x - sv * v.y, sv * v.x + cv * v.y⟩

/-- Approximate Euclidean norm. -/
def normApprox (v : Vector) : ℚ := ratSqrt (v.x ^ 2 + v.y ^ 2)

/-- Approximate unit vector (zero vector on degenerate input). -/
def unitApprox (v : Vector) : Vector :=
  let n := normApprox v
  if n ≤ 0 then ⟨0, 0⟩ else v.scale (1 / n)

/-- Left-ward normal of a travel direction (y-down device coordinates). -/
def leftNormal (v : Vector) : Vector := ⟨v.y, -v.x⟩

/-- Modelled from the spec: the lowering of an SVG endpoint-parameterized
elliptical arc into curve commands.  The algorithm lives in the missing
`path_builder` module and is not pinned down by the spec, so the model uses a
deterministic endpoint-to-center construction with fixed-precision rational
approximations of the required square roots and trigonometric values.  The
grammar parser's arc command and the builder's arc helpers share this single
lowering, as they share one code path through the builder abstraction. -/
def arcToCurves (rx ry : ℚ) (ang : Angle) (size : ArcSize)
    (sweep : ArcSweep) (p0 p1 : Vector) : List Command :=
  if rx ≤ 0 ∨ ry ≤ 0 ∨ p0 = p1 then [Command.LineTo p1]
  else
    let rad := ang.degrees * (355 / 113) / 180
    let cv := ratCosRad rad
    let sv := ratSinRad rad
    let d := rotV cv (-sv) (p1 - p0)
    let u : Vector := ⟨d.x / rx, d.y / ry⟩
    let L := normApprox u
    if L ≤ 0 then [Command.LineTo p1]
    else
      let m := u.scale (1 / 2)
      let k2 := 1 / (L * L) - 1 / 4
      let k := ratSqrt (if k2 ≤ 0 then 0 else k2)
      let sgn : ℚ :=
        if (size = ArcSize.Large) = (sweep = ArcSweep.Positive) then -1 else 1
      let c := m + (Vector.mk (-u.y) u.x).scale (sgn * k / L)
      let v0 := -c
      let w := v0 + (u - c)
      let r0 := normApprox v0
      let nw := normApprox w
      let dirv := if nw ≤ 0 then (Vector.mk (-u.y) u.x).scale (sgn / L)
                  else w.scale (1 / nw)
      let apexL := if size = ArcSize.Large then c - dirv.scale r0
                   else c + dirv.scale r0
      let apex := p0 + rotV cv sv ⟨apexL.x * rx, apexL.y * ry⟩
      [Command.CurveTo (lerpV p0 apex (1 / 3)) (apex - (p1 - p0).scale (1 / 6))
        apex,
       Command.CurveTo (apex + (p1 - p0).scale (1 / 6)) (lerpV p1 apex (1 / 3))
        p1]

/-- Builder append: `arc_to` with an absolute end point. -/
def arc_to (cmds : List Command) (rx ry : ℚ) (ang : Angle) (size : ArcSize)
    (sweep : ArcSweep) (p : Vector) : List Command :=
  cmds ++ arcToCurves rx ry ang size sweep (currentPoint cmds) p

/-- Builder append: `rel_arc_to` with an end point relative to the current
point. -/
def rel_arc_to (cmds : List Command) (rx ry : ℚ) (ang : Angle)
    (size : ArcSize) (sweep : ArcSweep) (p : Vector) : List Command :=
  arc_to cmds rx ry ang size sweep (currentPoint cmds + p)

/- ### SVG path grammar parser (missing `svg_parser` module) -/

/-- Token of the SVG path grammar: a command letter or a number. -/
inductive Tok where
  | letter (c : Char)
  | number (q : ℚ)
deriving DecidableEq

/-- Value of a digit string. -/
def digitsVal (l : List Char) : ℕ :=
  l.foldl (fun a c => a * 10 + (c.toNat - 48)) 0

/-- Lex one (possibly signed, possibly decimal) number. -/
def lexNumber (l : List Char) : Option (ℚ × List Char) :=
  let sgnRest : ℚ × List Char :=
    match l with
    | '-' :: rest => (-1, rest)
    | '+' :: rest => (1, rest)
    | _ => (1, l)
  let sgn := sgnRest.1
  let l1 := sgnRest.2
  let ds := l1.takeWhile Char.isDigit
  let l2 := l1.dropWhile Char.isDigit
  match l2 with
  | '.' :: rest =>
      let fs := rest.takeWhile Char.isDigit
      let l3 := rest.dropWhile Char.isDigit
      if ds.isEmpty ∧ fs.isEmpty then none
      else
        some (sgn * ((digitsVal ds : ℚ) +
          (digitsVal fs : ℚ) / ((10 : ℚ) ^ fs.length)), l3)
  | _ => if ds.isEmpty then none else some (sgn * (digitsVal ds : ℚ), l2)

/-- Fueled lexer loop over the path string. -/
def lexGo : ℕ → List Char → List Tok
  | 0, _ => []
  | _, [] => []
  | fuel + 1, c :: rest =>
      if c = ' ' ∨ c = ',' ∨ c = '\n' ∨ c = '\t' ∨ c = '\r' then
        lexGo fuel rest
      else if c.isAlpha then Tok.letter c :: lexGo fuel rest
      else
        match lexNumber (c :: rest) with
        | some (q, rest2) => Tok.number q :: lexGo fuel rest2
        | none => []

/-- Tokens of an SVG path string. -/
def lexSvg (s : String) : List Tok := lexGo (s.length + 1) s.toList

/-- Take one number token. -/
def takeNum : List Tok → Option (ℚ × List Tok)
  | Tok.number q :: rest => some (q, rest)
  | _ => none

/-- Take a coordinate pair. -/
def takePair (toks : List Tok) : Option (Vector × List Tok) := do
  let (x, r1) ← takeNum toks
  let (y, r2) ← takeNum r1
  pure (Vector.mk x y, r2)

/-- Execute one parsed command letter, consuming its argument set and
appending through the path-builder operations (the parser's output is the
abstract command sequence, §6). -/
def applyCmd (c : Char) (toks : List Tok) (acc : List Command) :
    Option (List Command × List Tok) :=
  match c with
  | 'M' => do
      let (p, r) ← takePair toks
      pure (move_to acc p, r)
  | 'm' => do
      let (p, r) ← takePair toks
      pure (rel_move_to acc p, r)
  | 'L' => do
      let (p, r) ← takePair toks
      pure (line_to acc p, r)
  | 'l' => do
      let (p, r) ← takePair toks
      pure (rel_line_to acc p, r)
  | 'Z' => pure (close acc, toks)
  | 'z' => pure (close acc, toks)
  | 'A' => do
      let (rx, r1) ← takeNum toks
      let (ry, r2) ← takeNum r1
      let (dg, r3) ← takeNum r2
      let (lf, r4) ← takeNum r3
      let (sf, r5) ← takeNum r4
      let (p, r6) ← takePair r5
      pure (arc_to acc rx ry (Angle.from_degrees dg)
        (if lf = 0 then ArcSize.Small else ArcSize.Large)
        (if sf = 0 then ArcSweep.Negative else ArcSweep.Positive) p, r6)
  | 'a' => do
      let (rx, r1) ← takeNum toks
      let (ry, r2) ← takeNum r1
      let (dg, r3) ← takeNum r2
      let (lf, r4) ← takeNum r3
      let (sf, r5) ← takeNum r4
      let (p, r6) ← takePair r5
      pure (rel_arc_to acc rx ry (Angle.from_degrees dg)
        (if lf = 0 then ArcSize.Small else ArcSize.Large)
        (if sf = 0 then ArcSweep.Negative else ArcSweep.Positive) p, r6)
  | _ => none

/-- Implicit continuation letter after one argument set (a moveto is
followed by implicit linetos, per the SVG grammar). -/
def implicitNext (c : Char) : Char :=
  if c = 'M' then 'L' else if c = 'm' then 'l' else c

/-- Fueled recursive-descent parser loop. -/
def parseGo : ℕ → Char → List Tok → List Command → List Command
  | 0, _, _, acc => acc
  | fuel + 1, c, toks, acc =>
      match toks with
      | [] => acc
      | Tok.letter c2 :: rest =>
          match applyCmd c2 rest acc with
          | some (acc2, rest2) => parseGo fuel (implicitNext c2) rest2 acc2
          | none => acc
      | Tok.number _ :: _ =>
          if c = 'Z' ∨ c = 'z' ∨ c = ' ' then acc
          else
            match applyCmd c toks acc with
            | some (acc2, rest2) => parseGo fuel (implicitNext c) rest2 acc2
            | none => acc

/-- Modelled from the spec: `parse(text) -> sequence of Command` of the
missing `svg_parser` module (§6); malformed input stops the parse (the core
never receives malformed text, §7). -/
def parseSvg (s : String) : List Command :=
  let toks := lexSvg s
  parseGo (toks.length + 1) ' ' toks []

/- ### Stroke and dash geometry engine (missing `stroke` module) -/

/-- Dash pattern entries normalized to non-negative lengths (§7: invalid
configuration is clamped, not failed). -/
def sanitizePat (pat : List ℚ) : List ℚ := pat.map fun e => max e 0

/-- Running partial sums of a list. -/
def cumsGo : List ℚ → ℚ → List ℚ
  | [], _ => []
  | e :: rest, acc => (acc + e) :: cumsGo rest (acc + e)

/-- Total period of a dash pattern. -/
def totalPeriod (pat : List ℚ) : ℚ := (sanitizePat pat).sum

/-- Pattern positions (within one period) at which the dash state toggles:
the period start and each interior partial sum. -/
def dashMarks (pat : List ℚ) : List ℚ :=
  0 :: (cumsGo (sanitizePat pat) 0).filter fun c => decide (c < totalPeriod pat)

/-- Modelled from the spec: the dash boundary characterization — the dash
phase is applied via modular arithmetic over the pattern's total period
(§4.2 step 1), so arc-length position `s` lies on a dash boundary for offset
`off` exactly when the pattern position `(s + off) mod T` is a toggle mark. -/
def isDashBoundary (pat : List ℚ) (off s : ℚ) : Prop :=
  qmod (s + off) (totalPeriod pat) ∈ dashMarks pat

instance (pat : List ℚ) (off s : ℚ) : Decidable (isDashBoundary pat off s) :=
  inferInstanceAs (Decidable (_ ∈ _))

/-- Dash on/off state at arc-length position `s` (on when an even number of
pattern entries precede the current pattern position). -/
def dashOn (pat : List ℚ) (off s : ℚ) : Bool :=
  let san := sanitizePat pat
  let T := san.sum
  if T ≤ 0 then true
  else
    decide ((cumsGo san 0).countP
      (fun c => decide (c ≤ qmod (s + off) T)) % 2 = 0)

/-- Fueled generation of toggle arc-length positions up to `lim`, cycling
through the pattern entries. -/
def togglesGo : ℕ → List ℚ → List ℚ → ℚ → ℚ → List ℚ
  | 0, _, _, _, _ => []
  | fuel + 1, pat, [], pos, lim => togglesGo fuel pat pat pos lim
  | fuel + 1, pat, e :: rest, pos, lim =>
      let p2 := pos + e
      if lim < p2 then []
      else p2 :: togglesGo fuel pat rest p2 lim

/-- All dash toggle positions in `(0, lim]` for a pattern and offset. -/
def dashToggles (pat : List ℚ) (off lim : ℚ) : List ℚ :=
  let san := sanitizePat pat
  let T := san.sum
  if T ≤ 0 then []
  else
    let φ := qmod off T
    let fuel := (san.length + 1) * ((Int.toNat ⌈(lim + T) / T⌉) + 2)
    (togglesGo fuel san san (-φ) lim).filter fun s => decide (0 < s)

/-- Consecutive segments of a polyline. -/
def segsOfPts : List Vector → List (Vector × Vector)
  | a :: b :: r => (a, b) :: segsOfPts (b :: r)
  | _ => []

/-- Approximate length of one segment. -/
def segLen (se : Vector × Vector) : ℚ := normApprox (se.2 - se.1)

/-- Walk the segments, cutting them at the toggle positions and collecting
the "on" runs (§4.2 step 1). -/
def runsGo : List (Vector × Vector) → ℚ → Bool → List Vector → List ℚ →
    List (List Vector) → List (List Vector)
  | [], _, onSt, run, _, acc =>
      acc ++ (if onSt ∧ 1 ≤ run.length then [run] else [])
  | (a, b) :: rest, pos, onSt, run, toggles, acc =>
      let ln := segLen (a, b)
      let here := toggles.filter fun t =>
        decide (pos < t) ∧ decide (t ≤ pos + ln)
      let step := fun (st : Bool × List Vector × List (List Vector)) (t : ℚ) =>
        let p := if ln ≤ 0 then a else lerpV a b ((t - pos) / ln)
        if st.1 then (false, ([], st.2.2 ++ [st.2.1 ++ [p]]))
        else (true, ([p], st.2.2))
      let res := here.foldl step (onSt, (run, acc))
      runsGo rest (pos + ln) res.1
        (if res.1 then res.2.1 ++ [b] else res.2.1) toggles res.2.2

/-- Split one polyline into dash "on" runs. -/
def dashRuns (pat : List ℚ) (off : ℚ) (pts : List Vector) :
    List (List Vector) :=
  match pts with
  | [] => []
  | p :: rest =>
      let segs := segsOfPts (p :: rest)
      let lim := (segs.map segLen).sum
      let tg := dashToggles pat off lim
      let on0 := dashOn pat off 0
      runsGo segs 0 on0 (if on0 then [p] else []) tg []

/-- A closed quadrilateral outline piece. -/
def quadCmds (a b c d : Vector) : List Command :=
  [Command.MoveTo a, Command.LineTo b, Command.LineTo c, Command.LineTo d,
   Command.Close]

/-- A closed triangle outline piece. -/
def triCmds (a b c : Vector) : List Command :=
  [Command.MoveTo a, Command.LineTo b, Command.LineTo c, Command.Close]

/-- Offset rectangle of one centerline segment at `±halfw` (§4.2 step 2). -/
def segBody (halfw : ℚ) (s e : Vector) : List Command :=
  let n := (leftNormal (unitApprox (e - s))).scale halfw
  quadCmds (s + n) (e + n) (e - n) (s - n)

/-- Dot product. -/
def dotV (a b : Vector) : ℚ := a.x * b.x + a.y * b.y

/-- Join geometry at an interior vertex `b` between segments `a→b` and
`b→c`: Bevel connects the offset endpoints, Miter adds the tangent
intersection when within the miter limit, Round adds an arc approximated by
an apex fan (§4.2 step 2). -/
def joinCmds (jn : Join) (ml halfw : ℚ) (a b c : Vector) : List Command :=
  let t1 := unitApprox (b - a)
  let t2 := unitApprox (c - b)
  let n1 := (leftNormal t1).scale halfw
  let n2 := (leftNormal t2).scale halfw
  let base := triCmds (b + n1) (b + n2) b ++ triCmds (b - n1) (b - n2) b
  match jn with
  | Join.Bevel => base
  | Join.Miter =>
      let dd := dotV t1 t2
      if 1 + dd ≤ 0 then base
      else if 2 ≤ ml ^ 2 * (1 + dd) then
        let mp := b + (n1 + n2).scale (1 / (1 + dd))
        base ++ triCmds (b + n1) mp (b + n2) ++
          triCmds (b - n1) (b - (n1 + n2).scale (1 / (1 + dd)) + b - b) (b - n2)
      else base
  | Join.Round =>
      let ap := (unitApprox (n1 + n2)).scale halfw
      base ++ triCmds (b + n1) (b + ap) (b + n2) ++
        triCmds (b - n1) (b - ap) (b - n2)

/-- Cap geometry at a free end `p` with outward unit direction `dir`
(§4.2 step 3): Butt closes flat, Square extends by `halfw`, Round is
approximated by a fan. -/
def capCmds (k : Cap) (halfw : ℚ) (p dir : Vector) : List Command :=
  let n := (leftNormal dir).scale halfw
  let ext := dir.scale halfw
  match k with
  | Cap.Butt => []
  | Cap.Square => quadCmds (p + n) (p + n + ext) (p - n + ext) (p - n)
  | Cap.Round =>
      triCmds (p + n) (p + ext) (p - n) ++
        triCmds (p + n) (p + (n + ext).scale (3 / 4)) (p + ext) ++
        triCmds (p - n) (p + (ext - n).scale (3 / 4)) (p + ext)

/-- Interior vertex triples of a polyline. -/
def triplesOf : List Vector → List (Vector × Vector × Vector)
  | a :: b :: c :: r => (a, b, c) :: triplesOf (b :: c :: r)
  | _ => []

/-- Outline of one dash run (or undashed subpath): segment rectangles, join
geometry at interior vertices, and cap geometry at free ends; closed
undashed subpaths receive a wraparound join instead of caps (§4.2). -/
def runOutline (st : Stroke) (halfw : ℚ) (pts : List Vector) (caps : Bool) :
    List Command :=
  match segsOfPts pts with
  | [] =>
      match pts with
      | [p] =>
          if caps ∧ (st.start_cap ≠ Cap.Butt ∨ st.end_cap ≠ Cap.Butt) then
            capCmds st.start_cap halfw p ⟨-1, 0⟩ ++
              capCmds st.end_cap halfw p ⟨1, 0⟩
          else []
      | _ => []
  | s0 :: srest =>
      let segs := s0 :: srest
      let bodies := segs.flatMap fun se => segBody halfw se.1 se.2
      let joins := (triplesOf pts).flatMap fun abc =>
        joinCmds st.join st.miter_limit halfw abc.1 abc.2.1 abc.2.2
      let sLast := srest.getLastD s0
      let front :=
        if caps then
          capCmds st.start_cap halfw s0.1 (-(unitApprox (s0.2 - s0.1))) ++
            capCmds st.end_cap halfw sLast.2 (unitApprox (sLast.2 - sLast.1))
        else
          match pts with
          | p0 :: p1 :: _ => joinCmds st.join st.miter_limit halfw sLast.1 p0 p1
          | _ => []
      bodies ++ joins ++ front

/-- Modelled from the spec: the stroke and dash geometry engine (§4.2) —
dash the subpaths (step 1), then offset each run at `±width/2` with join,
cap and closure handling (steps 2–4); the runs union implicitly under the
downstream non-zero fill.  Width is clamped to a small positive epsilon. -/
def strokeOutline (s : Stroke) (cmds : List Command) : List Command :=
  let halfw := max s.width (1 / 1000) / 2
  let dashing := decide (0 < totalPeriod s.dashes) ∧ ¬s.dashes.isEmpty
  (flattenSubpaths cmds).flatMap fun sub =>
    let pts0 := sub.1
    let ptsC :=
      if sub.2 ∧ 1 ≤ pts0.length then pts0 ++ [pts0.headD ⟨0, 0⟩] else pts0
    let runs := if dashing then dashRuns s.dashes s.offset ptsC else [ptsC]
    runs.flatMap fun run =>
      runOutline s halfw run (decide (¬sub.2) ∨ dashing)

/- ### Orchestrators: apply, Mask, HitTest, Walk -/

/-- Modelled from the spec: the styled fill outline — a Stroke style runs the
stroke engine, a Fill style uses the path directly (§4.4 step b). -/
def styleOutline : Style → List Command → List Command
  | Style.fill _, cmds => cmds
  | Style.stroke s, cmds => strokeOutline s cmds

/-- Fill rule under which the styled outline is rasterized: the requested
rule for fills, NonZero for stroke outlines (§4.2 step 4). -/
def styleRule : Style → Fill
  | Style.fill f => f
  | Style.stroke _ => Fill.NonZero

/-- Styled flattened geometry of a path. -/
def styledPolys (st : Style) (cmds : List Command) : List (List Vector) :=
  flattenCmds (styleOutline st cmds)

/-- Modelled from the spec: the capture entry point `apply` — writes the
resulting fill outline of a styled path into a path-builder sink (§6). -/
def apply (cmds : List Command) (st : Style) (sink : List Command) :
    List Command :=
  sink ++ styleOutline st cmds

/-- Modelled from the spec: the Mask builder of the missing `mask` module —
path data plus optional style, optional explicit size and target format
(crate root docs, §4.4). -/
structure Mask where
  path : List Command
  styleOpt : Option Style
  sizeOpt : Option (ℕ × ℕ)
  fmt : Format
deriving DecidableEq

/-- Construct a mask configuration from path data. -/
def Mask.new (cmds : List Command) : Mask := ⟨cmds, none, none, Format.Alpha⟩

/-- Builder method: choose a style. -/
def Mask.style (m : Mask) (st : Style) : Mask := { m with styleOpt := some st }

/-- Builder method: choose an explicit target size. -/
def Mask.size (m : Mask) (w h : ℕ) : Mask := { m with sizeOpt := some (w, h) }

/-- Builder method: choose the target format. -/
def Mask.format (m : Mask) (f : Format) : Mask := { m with fmt := f }

/-- Effective style: a non-zero fill when no style was configured (crate
root docs: "The previous example did not provide a style, so a non-zero Fill
was chosen by default"). -/
def Mask.effStyle (m : Mask) : Style := m.styleOpt.getD (Style.fill Fill.NonZero)

/-- Render, allocating the output: mask bytes plus placement (§4.4). -/
def Mask.render (m : Mask) : List ℕ × Placement :=
  rasterize m.fmt (styledPolys m.effStyle m.path) (styleRule m.effStyle)
    m.sizeOpt

/-- Render into a caller-supplied buffer: the mask bytes overwrite the
buffer's prefix (§6; the buffer must hold `buffer_size` bytes). -/
def Mask.render_into (m : Mask) (buf : List ℕ) : List ℕ × Placement :=
  let r := m.render
  (r.1 ++ buf.drop r.1.length, r.2)

/-- Modelled from the spec: the hit-test engine (§4.5) — cached flattened
geometry, a fill rule and a coverage threshold; the default threshold passes
on any nonzero coverage. -/
structure HitTest where
  polys : List (List Vector)
  rule : Fill
  thr : ℕ
deriving DecidableEq

/-- Construct a hit test from path data (implicit non-zero fill). -/
def HitTest.new (cmds : List Command) : HitTest :=
  ⟨flattenCmds cmds, Fill.NonZero, 0⟩

/-- Construct a hit test from path data with a style. -/
def HitTest.newStyled (cmds : List Command) (st : Style) : HitTest :=
  ⟨styledPolys st cmds, styleRule st, 0⟩

/-- Builder method: set the coverage threshold (clamped into `[0,255]`,
§7). -/
def HitTest.threshold (ht : HitTest) (v : ℕ) : HitTest :=
  { ht with thr := min v 255 }

/-- Coverage the rasterizer would compute at one pixel (§4.5: the hit test
reuses the rasterizer restricted to a single pixel). -/
def HitTest.coverage (ht : HitTest) (px py : ℤ) : ℕ :=
  coverageAt ht.polys ht.rule px py

/-- Modelled from the spec: threshold semantics — `coverage > threshold` is
a hit, except that threshold 255 requires full coverage (§4.5). -/
def HitTest.test (ht : HitTest) (q : ℤ × ℤ) : Bool :=
  if 255 ≤ ht.thr then decide (ht.coverage q.1 q.2 = 255)
  else decide (ht.thr < ht.coverage q.1 q.2)

/-- Modelled from the spec: the Walk stepper of the missing `traversal`
module — a cursor over the arc-length-parameterized flattened path (§4.6). -/
structure Walk where
  segs : List (Vector × Vector)
  dist : ℚ
deriving DecidableEq

/-- Construct a walk over a path's flattened segments. -/
def Walk.new (cmds : List Command) : Walk :=
  ⟨(flattenCmds cmds).flatMap segsOfPts, 0⟩

/-- Total arc length of the walk's flattened path. -/
def Walk.total (w : Walk) : ℚ := (w.segs.map segLen).sum

/-- Position and unit direction at a given arc-length distance. -/
def walkPointGo : List (Vector × Vector) → ℚ → Vector × Vector
  | [], _ => (⟨0, 0⟩, ⟨1, 0⟩)
  | [se], d =>
      (if segLen se ≤ 0 then se.1 else lerpV se.1 se.2 (d / segLen se),
       unitApprox (se.2 - se.1))
  | se :: s2 :: rest, d =>
      if d ≤ segLen se then
        (if segLen se ≤ 0 then se.1 else lerpV se.1 se.2 (d / segLen se),
         unitApprox (se.2 - se.1))
      else walkPointGo (s2 :: rest) (d - segLen se)

/-- Current cursor position on the path. -/
def Walk.position (w : Walk) : Vector := (walkPointGo w.segs w.dist).1

/-- Left-ward normal at the current cursor position. -/
def Walk.normalAt (w : Walk) : Vector := leftNormal (walkPointGo w.segs w.dist).2

/-- Modelled from the spec: `advance(distance)` — moves the cursor forward
by `distance` and yields the position and left normal there, or `None` once
the cumulative distance exceeds the total length (terminal state) (§4.6). -/
def Walk.advance (w : Walk) (d : ℚ) : Option (Vector × Vector) × Walk :=
  let nd := w.dist + d
  if nd ≤ w.total then
    (some ((walkPointGo w.segs nd).1, leftNormal (walkPointGo w.segs nd).2),
     ⟨w.segs, nd⟩)
  else (none, ⟨w.segs, nd⟩)

/-- Pixel accessor of a row-major mask byte buffer of row width `w`. -/
def maskPixel (bytes : List ℕ) (w : ℕ) (x y : ℕ) : ℕ :=
  bytes.getD (y * w + x) 0

/- ### Helper lemmas -/

theorem qmod_add_right (a b : ℚ) : qmod (a + b) b = qmod a b := by
  unfold qmod
  rcases eq_or_ne b 0 with h | h
  · simp [h]
  · rw [add_div, div_self h, Int.floor_add_one]
    push_cast
    ring

theorem renderBytes_length (fmt : Format) (polys : List (List Vector))
    (rule : Fill) (l t : ℤ) (w h : ℕ) :
    (renderBytes fmt polys rule l t w h).length = fmt.buffer_size w h := by
  cases fmt <;> simp [renderBytes, Format.buffer_size]

/- ### Claim theorems -/

/-- C2.  For the path `"M10,0 10,10 20,10 20,0 Z"`, which covers exactly the
right half of a 20×10 region, the hit test at the default threshold returns
`true` for `[15,5]` and `false` for `[5,5]`; the model is a pure function,
so the result is reproducible by construction. -/
theorem hitTest_boundary_example :
    (HitTest.new (parseSvg "M10,0 10,10 20,10 20,0 Z")).test (15, 5) = true ∧
    (HitTest.new (parseSvg "M10,0 10,10 20,10 20,0 Z")).test (5, 5) = false := by
  with_unfolding_all decide

/-- C3.  A path built incrementally through the path-builder API yields a
command sequence identical to parsing the equivalent SVG path-grammar
string: `move_to([8,56]).line_to([32,8]).line_to([56,56]).close()` equals
the commands of `"M 8,56 32,8 56,56 Z"`, and
`move_to([1,2]).rel_arc_to(8, 4, 30°, Small, Positive, [10,4])` equals the
commands of `"M1,2 a8,4,30,0,1,10,4"`. -/
theorem builder_parser_equivalence :
    close (line_to (line_to (move_to [] ⟨8, 56⟩) ⟨32, 8⟩) ⟨56, 56⟩) =
      parseSvg "M 8,56 32,8 56,56 Z" ∧
    rel_arc_to (move_to [] ⟨1, 2⟩) 8 4 (Angle.from_degrees 30) ArcSize.Small
      ArcSweep.Positive ⟨10, 4⟩ =
      parseSvg "M1,2 a8,4,30,0,1,10,4" := by
  constructor
  · with_unfolding_all rfl
  · with_unfolding_all rfl

/-- C5.  `buffer_size` for the 8-bit alpha format equals `w*h` bytes and for
the 32-bit subpixel format equals `w*h*4` bytes; the rendered mask of an
explicit `w × h` target holds exactly `buffer_size` bytes, and rendering
into a buffer of exactly that many bytes fills it exactly — the result is
precisely the mask bytes, with nothing written past the end. -/
theorem buffer_size_sound (w h : ℕ) (fmt : Format) (cmds : List Command)
    (st : Style) (buf : List ℕ)
    (hbuf : buf.length = fmt.buffer_size w h) :
    Format.buffer_size Format.Alpha w h = w * h ∧
    Format.buffer_size Format.Subpixel w h = w * h * 4 ∧
    ((((Mask.new cmds).style st).size w h).format fmt).render.1.length
      = fmt.buffer_size w h ∧
    (((((Mask.new cmds).style st).size w h).format fmt).render_into buf).1
      = ((((Mask.new cmds).style st).size w h).format fmt).render.1 := by
  refine ⟨rfl, rfl, ?_, ?_⟩
  · exact renderBytes_length ..
  · show (((((Mask.new cmds).style st).size w h).format fmt).render.1 ++
      buf.drop _) = _
    have hlen : ((((Mask.new cmds).style st).size w h).format fmt).render.1.length
        = fmt.buffer_size w h := renderBytes_length ..
    rw [List.drop_eq_nil_of_le (le_of_eq (hbuf.trans hlen.symm)),
      List.append_nil]

/-- Witness for C5 at a concrete size, format, path and buffer. -/
theorem buffer_size_sound_witness :
    ([0, 0] : List ℕ).length = Format.buffer_size Format.Alpha 2 1 ∧
    (((((Mask.new []).style (Style.fill Fill.NonZero)).size 2 1).format
        Format.Alpha).render_into [0, 0]).1
      = ((((Mask.new []).style (Style.fill Fill.NonZero)).size 2 1).format
        Format.Alpha).render.1 :=
  ⟨rfl, (buffer_size_sound 2 1 Format.Alpha [] (Style.fill Fill.NonZero)
    [0, 0] rfl).2.2.2⟩

/-- C6.  Capturing a stroke's output fill outline through the `apply` entry
point into a path-builder sink and rendering the captured outline with the
NonZero fill rule is equivalent to rendering the original path with the
stroke style directly: in the model both pipelines rasterize the same stroke
outline under the same rule, so the masks and placements coincide exactly. -/
theorem capture_round_trip (cmds : List Command) (s : Stroke) :
    ((Mask.new (apply cmds (Style.stroke s) [])).style
        (Style.fill Fill.NonZero)).render
      = ((Mask.new cmds).style (Style.stroke s)).render := rfl

/-- C10.  A Mask configured with no style renders with a non-zero fill by
default: `Mask::new(p).render()` equals
`Mask::new(p).style(Fill::NonZero).render()` for every path. -/
theorem default_style_is_nonzero_fill (p : List Command) :
    (Mask.new p).render
      = ((Mask.new p).style (Style.fill Fill.NonZero)).render := rfl

/-- C9.  The dash phase offset is applied via modular arithmetic over the
pattern's total period: sliding the offset by `δ` moves every dash boundary
position by exactly `-δ` (continuously, with no discontinuous jump at all in
the exact-arithmetic model), and advancing the offset by one full period
leaves the boundary set unchanged (wraparound). -/
theorem dash_offset_modular_sliding (pat : List ℚ) (off δ s : ℚ) :
    (isDashBoundary pat off s ↔ isDashBoundary pat (off + δ) (s - δ)) ∧
    (isDashBoundary pat (off + totalPeriod pat) s ↔ isDashBoundary pat off s)
    := by
  constructor
  · unfold isDashBoundary
    rw [show s - δ + (off + δ) = s + off by ring]
  · unfold isDashBoundary
    rw [show s + (off + totalPeriod pat) = s + off + totalPeriod pat by ring,
      qmod_add_right]

/-- C7.  `advance(distance)` with non-negative distance moves the cursor
forward and yields the position and left normal while the cumulative
distance does not exceed the total length; it yields `None` once it does,
and a cursor already past the end stays terminal; a zero-distance step
returns the current position without advancing; and the cursor never moves
backward. -/
theorem Walk.advance_snd (w : Walk) (d : ℚ) :
    (w.advance d).2 = ⟨w.segs, w.dist + d⟩ := by
  by_cases h : w.dist + d ≤ w.total <;> simp [Walk.advance, h]

theorem walk_advance_spec (w : Walk) (d : ℚ) (hd : 0 ≤ d) :
    (w.dist + d ≤ w.total →
      (w.advance d).1 = some ((walkPointGo w.segs (w.dist + d)).1,
        leftNormal (walkPointGo w.segs (w.dist + d)).2)) ∧
    (w.total < w.dist + d → (w.advance d).1 = none) ∧
    ((w.advance d).2.dist = w.dist + d ∧ w.dist ≤ (w.advance d).2.dist) ∧
    (w.dist ≤ w.total →
      (w.advance 0).1 = some (w.position, w.normalAt) ∧ (w.advance 0).2 = w) ∧
    (w.total < w.dist → (w.advance d).1 = none) := by
  refine ⟨fun h => ?_, fun h => ?_, ⟨?_, ?_⟩, fun h => ⟨?_, ?_⟩, fun h => ?_⟩
  · simp only [Walk.advance, if_pos h]
  · simp only [Walk.advance, if_neg (not_le.mpr h)]
  · rw [Walk.advance_snd]
  · rw [Walk.advance_snd]
    exact le_add_of_nonneg_right hd
  · simp only [Walk.advance, add_zero, if_pos h]
    rfl
  · rw [Walk.advance_snd, add_zero]
  · have hlt : w.total < w.dist + d := lt_of_lt_of_le h (le_add_of_nonneg_right hd)
    simp only [Walk.advance, if_neg (not_le.mpr hlt)]

/-- Witness for C7 on a concrete walk and step. -/
theorem walk_advance_spec_witness :
    (0 : ℚ) ≤ 2 ∧
    ((Walk.new [Command.MoveTo ⟨0, 0⟩, Command.LineTo ⟨5, 0⟩]).advance 2).2.dist
      = (Walk.new [Command.MoveTo ⟨0, 0⟩, Command.LineTo ⟨5, 0⟩]).dist + 2 :=
  ⟨by norm_num,
    ((walk_advance_spec (Walk.new [Command.MoveTo ⟨0, 0⟩,
      Command.LineTo ⟨5, 0⟩]) 2 (by norm_num)).2.2.1).1⟩

/-- C8.  Degenerate inputs never fail: rendering an empty path yields an
empty mask with a zero-size placement; whenever the auto-computed mask
dimensions are degenerate (zero in either axis) the rasterizer yields an
empty mask and a zero-size placement instead of failing; and hit-testing an
empty path is false for every query point and threshold. -/
theorem degenerate_inputs_graceful (q : ℤ × ℤ) (t : ℕ) (fmt : Format)
    (polys : List (List Vector)) (rule : Fill) (b : Bounds)
    (hb : boundsOf polys = some b)
    (hdeg : (⌈b.maxx⌉ - ⌊b.minx⌋).toNat = 0 ∨
      (⌈b.maxy⌉ - ⌊b.miny⌋).toNat = 0) :
    (Mask.new []).render = ([], ⟨0, 0, 0, 0⟩) ∧
    rasterize fmt polys rule none = ([], ⟨0, 0, 0, 0⟩) ∧
    ((HitTest.new []).threshold t).test q = false := by
  refine ⟨rfl, ?_, ?_⟩
  · simp only [rasterize, hb]
    rw [if_pos hdeg]
  · have hcov : coverageAt (flattenCmds []) Fill.NonZero q.1 q.2 = 0 := by
      simp [coverageAt, flattenCmds, flattenSubpaths, flattenGo, windingArea,
        quantize]
    by_cases hthr : 255 ≤ min t 255 <;>
      simp [HitTest.test, HitTest.threshold, HitTest.coverage, HitTest.new,
        hthr, hcov]

/-- Witness for C8 on a concretely degenerate geometry (a vertical segment
of zero horizontal extent). -/
theorem degenerate_inputs_graceful_witness :
    boundsOf [[(⟨0, 0⟩ : Vector), ⟨0, 3⟩]] = some ⟨0, 0, 0, 3⟩ ∧
    rasterize Format.Alpha [[(⟨0, 0⟩ : Vector), ⟨0, 3⟩]] Fill.NonZero none
      = ([], ⟨0, 0, 0, 0⟩) :=
  ⟨by with_unfolding_all decide,
    (degenerate_inputs_graceful (0, 0) 0 Format.Alpha
      [[(⟨0, 0⟩ : Vector), ⟨0, 3⟩]] Fill.NonZero ⟨0, 0, 0, 3⟩
      (by with_unfolding_all decide)
      (Or.inl (by with_unfolding_all decide))).2.1⟩

/-- C1.  Hit-test threshold semantics: for every path and integer query
point, a hit test at threshold `t < 255` passes iff `coverage > t` (and
fails iff `coverage ≤ t`); threshold 0 hits on any nonzero coverage;
threshold 255 requires full coverage 255.  In particular, for the path
`"M2.5,0 2.5,2 5,2 5,0 Z"`, `test([2,0])` is false at threshold 255 and
true at threshold 0. -/
theorem hitTest_threshold_semantics (cmds : List Command) (q : ℤ × ℤ)
    (t : ℕ) (htle : t ≤ 255) :
    (t < 255 → (((HitTest.new cmds).threshold t).test q = true ↔
      t < ((HitTest.new cmds).threshold t).coverage q.1 q.2)) ∧
    (t < 255 → (((HitTest.new cmds).threshold t).test q = false ↔
      ((HitTest.new cmds).threshold t).coverage q.1 q.2 ≤ t)) ∧
    (t = 0 → (((HitTest.new cmds).threshold t).test q = true ↔
      ((HitTest.new cmds).threshold t).coverage q.1 q.2 ≠ 0)) ∧
    (t = 255 → (((HitTest.new cmds).threshold t).test q = true ↔
      ((HitTest.new cmds).threshold t).coverage q.1 q.2 = 255)) ∧
    ((HitTest.new (parseSvg "M2.5,0 2.5,2 5,2 5,0 Z")).threshold 255).test
      (2, 0) = false ∧
    ((HitTest.new (parseSvg "M2.5,0 2.5,2 5,2 5,0 Z")).threshold 0).test
      (2, 0) = true := by
  have hmin : min t 255 = t := min_eq_left htle
  refine ⟨fun h255 => ?_, fun h255 => ?_, fun h0 => ?_, fun heq => ?_, ?_, ?_⟩
  · simp [HitTest.test, HitTest.threshold, hmin, not_le.mpr h255]
  · simp [HitTest.test, HitTest.threshold, hmin, not_le.mpr h255, not_lt]
  · subst h0
    simp [HitTest.test, HitTest.threshold, Nat.pos_iff_ne_zero]
  · subst heq
    simp [HitTest.test, HitTest.threshold]
  · with_unfolding_all decide
  · with_unfolding_all decide

/-- Witness for C1: the threshold-0 reading instantiated on the empty path
at the origin. -/
theorem hitTest_threshold_semantics_witness :
    (0 : ℕ) ≤ 255 ∧
    (((HitTest.new []).threshold 0).test (0, 0) = true ↔
      ((HitTest.new []).threshold 0).coverage 0 0 ≠ 0) :=
  ⟨by decide,
    (hitTest_threshold_semantics [] (0, 0) 0 (by decide)).2.2.1 rfl⟩

/- ### Clipping lemmas for placement correctness -/

theorem mem_clipHalf {ins : Vector → Bool} {ix : Vector → Vector → Vector}
    {pts : List Vector} {q : Vector} (hq : q ∈ clipHalf ins ix pts) :
    (q ∈ pts ∧ ins q = true) ∨
    ∃ s ∈ pts, ∃ e ∈ pts, ins s ≠ ins e ∧ q = ix s e := by
  match pts with
  | [] => simp [clipHalf] at hq
  | p :: rest =>
    simp only [clipHalf, List.mem_flatMap] at hq
    obtain ⟨se, hse, hqe⟩ := hq
    have hs : se.1 ∈ p :: rest := (List.of_mem_zip hse).1
    have he : se.2 ∈ p :: rest := by
      have h2 := (List.of_mem_zip hse).2
      rcases List.mem_append.mp h2 with h | h
      · exact List.mem_cons_of_mem _ h
      · simp only [List.mem_singleton] at h
        simp [h]
    unfold edgeClip at hqe
    by_cases h1 : ins se.2 <;> by_cases h2 : ins se.1
    · rw [if_pos h1, if_pos h2] at hqe
      simp only [List.mem_singleton] at hqe
      exact Or.inl ⟨hqe ▸ he, hqe ▸ h1⟩
    · rw [if_pos h1, if_neg h2] at hqe
      rcases List.mem_cons.mp hqe with hq1 | hq2
      · exact Or.inr ⟨se.1, hs, se.2, he, by simp [h1, h2], hq1⟩
      · simp only [List.mem_singleton] at hq2
        exact Or.inl ⟨hq2 ▸ he, hq2 ▸ h1⟩
    · rw [if_neg h1, if_pos h2] at hqe
      simp only [List.mem_singleton] at hqe
      exact Or.inr ⟨se.1, hs, se.2, he, by simp [h1, h2], hqe⟩
    · rw [if_neg h1, if_neg h2] at hqe
      exact absurd hqe (List.not_mem_nil q)

theorem clip_subset_of_all_inside {ins : Vector → Bool}
    {ix : Vector → Vector → Vector} {pts : List Vector}
    (h : ∀ p ∈ pts, ins p = true) :
    ∀ q ∈ clipHalf ins ix pts, q ∈ pts := by
  intro q hq
  rcases mem_clipHalf hq with ⟨hm, _⟩ | ⟨s, hs, e, he, hne, _⟩
  · exact hm
  · exact absurd (by rw [h s hs, h e he]) hne

theorem clip_const_x_low (a : ℚ) (pts : List Vector)
    (h : ∀ p ∈ pts, p.x ≤ a) :
    ∀ q ∈ clipHalf (fun p => decide (a ≤ p.x)) (ixX a) pts, q.x = a := by
  intro q hq
  rcases mem_clipHalf hq with ⟨hm, hins⟩ | ⟨s, _, e, _, _, rfl⟩
  · have h1 : a ≤ q.x := of_decide_eq_true hins
    exact le_antisymm (h q hm) h1 ▸ rfl
  · rfl

theorem clip_const_x_high (a : ℚ) (pts : List Vector)
    (h : ∀ p ∈ pts, a ≤ p.x) :
    ∀ q ∈ clipHalf (fun p => decide (p.x ≤ a)) (ixX a) pts, q.x = a := by
  intro q hq
  rcases mem_clipHalf hq with ⟨hm, hins⟩ | ⟨s, _, e, _, _, rfl⟩
  · have h1 : q.x ≤ a := of_decide_eq_true hins
    exact le_antisymm h1 (h q hm) ▸ rfl
  · rfl

theorem clip_const_y_low (b : ℚ) (pts : List Vector)
    (h : ∀ p ∈ pts, p.y ≤ b) :
    ∀ q ∈ clipHalf (fun p => decide (b ≤ p.y)) (ixY b) pts, q.y = b := by
  intro q hq
  rcases mem_clipHalf hq with ⟨hm, hins⟩ | ⟨s, _, e, _, _, rfl⟩
  · have h1 : b ≤ q.y := of_decide_eq_true hins
    exact le_antisymm (h q hm) h1 ▸ rfl
  · rfl

theorem clip_const_y_high (b : ℚ) (pts : List Vector)
    (h : ∀ p ∈ pts, b ≤ p.y) :
    ∀ q ∈ clipHalf (fun p => decide (p.y ≤ b)) (ixY b) pts, q.y = b := by
  intro q hq
  rcases mem_clipHalf hq with ⟨hm, hins⟩ | ⟨s, _, e, _, _, rfl⟩
  · have h1 : q.y ≤ b := of_decide_eq_true hins
    exact le_antisymm h1 (h q hm) ▸ rfl
  · rfl

theorem clipX_pres_const_x (f : ℚ → Bool) (a c : ℚ) (pts : List Vector)
    (h : ∀ p ∈ pts, p.x = a) :
    ∀ q ∈ clipHalf (fun p => f p.x) (ixX c) pts, q.x = a := by
  intro q hq
  rcases mem_clipHalf hq with ⟨hm, _⟩ | ⟨s, hs, e, he, hne, _⟩
  · exact h q hm
  · exact absurd (by rw [h s hs, h e he]) hne

theorem clipY_pres_const_x (g : Vector → Bool) (b a : ℚ) (pts : List Vector)
    (h : ∀ p ∈ pts, p.x = a) :
    ∀ q ∈ clipHalf g (ixY b) pts, q.x = a := by
  intro q hq
  rcases mem_clipHalf hq with ⟨hm, _⟩ | ⟨s, hs, e, he, _, rfl⟩
  · exact h q hm
  · show s.x + (e.x - s.x) * _ = a
    rw [h s hs, h e he]
    ring

theorem clipY_pres_const_y (f : ℚ → Bool) (b c : ℚ) (pts : List Vector)
    (h : ∀ p ∈ pts, p.y = c) :
    ∀ q ∈ clipHalf (fun p => f p.y) (ixY b) pts, q.y = c := by
  intro q hq
  rcases mem_clipHalf hq with ⟨hm, _⟩ | ⟨s, hs, e, he, hne, _⟩
  · exact h q hm
  · exact absurd (by rw [h s hs, h e he]) hne

theorem clipX_pres_const_y (g : Vector → Bool) (a c : ℚ) (pts : List Vector)
    (h : ∀ p ∈ pts, p.y = c) :
    ∀ q ∈ clipHalf g (ixX a) pts, q.y = c := by
  intro q hq
  rcases mem_clipHalf hq with ⟨hm, _⟩ | ⟨s, hs, e, he, _, rfl⟩
  · exact h q hm
  · show s.y + (e.y - s.y) * _ = c
    rw [h s hs, h e he]
    ring

theorem div_t_bounds (sx ex a : ℚ) (hne : sx ≠ ex) (h1 : min sx ex ≤ a)
    (h2 : a ≤ max sx ex) :
    0 ≤ (a - sx) / (ex - sx) ∧ (a - sx) / (ex - sx) ≤ 1 := by
  rcases lt_or_gt_of_ne hne with hlt | hgt
  · rw [min_eq_left hlt.le] at h1
    rw [max_eq_right hlt.le] at h2
    have hd : 0 < ex - sx := by linarith
    exact ⟨div_nonneg (by linarith) hd.le, by rw [div_le_one hd]; linarith⟩
  · rw [min_eq_right hgt.le] at h1
    rw [max_eq_left hgt.le] at h2
    have hd : 0 < sx - ex := by linarith
    have heq : (a - sx) / (ex - sx) = (sx - a) / (sx - ex) := by
      rw [div_eq_div_iff (by linarith) (by linarith)]
      ring
    rw [heq]
    exact ⟨div_nonneg (by linarith) hd.le, by rw [div_le_one hd]; linarith⟩

theorem cross_test_ge (c u v : ℚ) (h : decide (c ≤ u) ≠ decide (c ≤ v)) :
    u ≠ v ∧ min u v ≤ c ∧ c ≤ max u v := by
  by_cases h1 : c ≤ u <;> by_cases h2 : c ≤ v <;> simp [h1, h2] at h
  · push_neg at h2
    exact ⟨(ne_of_lt (lt_of_lt_of_le h2 h1)).symm,
      le_trans (min_le_right u v) h2.le, le_trans h1 (le_max_left u v)⟩
  · push_neg at h1
    exact ⟨ne_of_lt (lt_of_lt_of_le h1 h2),
      le_trans (min_le_left u v) h1.le, le_trans h2 (le_max_right u v)⟩

theorem cross_test_le (c u v : ℚ) (h : decide (u ≤ c) ≠ decide (v ≤ c)) :
    u ≠ v ∧ min u v ≤ c ∧ c ≤ max u v := by
  by_cases h1 : u ≤ c <;> by_cases h2 : v ≤ c <;> simp [h1, h2] at h
  · push_neg at h2
    exact ⟨ne_of_lt (lt_of_le_of_lt h1 h2), le_trans (min_le_left u v) h1,
      le_trans h2.le (le_max_right u v)⟩
  · push_neg at h1
    exact ⟨(ne_of_lt (lt_of_le_of_lt h2 h1)).symm,
      le_trans (min_le_right u v) h2, le_trans h1.le (le_max_left u v)⟩

theorem clipX_pres_y_ub (f : ℚ → Bool) (a ub : ℚ) (pts : List Vector)
    (hcross : ∀ u v : ℚ, f u ≠ f v → u ≠ v ∧ min u v ≤ a ∧ a ≤ max u v)
    (h : ∀ p ∈ pts, p.y ≤ ub) :
    ∀ q ∈ clipHalf (fun p => f p.x) (ixX a) pts, q.y ≤ ub := by
  intro q hq
  rcases mem_clipHalf hq with ⟨hm, _⟩ | ⟨s, hs, e, he, hne, rfl⟩
  · exact h q hm
  · obtain ⟨hxne, hmin, hmax⟩ := hcross s.x e.x hne
    obtain ⟨ht0, ht1⟩ := div_t_bounds s.x e.x a hxne hmin hmax
    show s.y + (e.y - s.y) * ((a - s.x) / (e.x - s.x)) ≤ ub
    nlinarith [h s hs, h e he,
      mul_nonneg (sub_nonneg.mpr (h s hs)) (sub_nonneg.mpr ht1),
      mul_nonneg (sub_nonneg.mpr (h e he)) ht0]

theorem clipX_pres_y_lb (f : ℚ → Bool) (a lb : ℚ) (pts : List Vector)
    (hcross : ∀ u v : ℚ, f u ≠ f v → u ≠ v ∧ min u v ≤ a ∧ a ≤ max u v)
    (h : ∀ p ∈ pts, lb ≤ p.y) :
    ∀ q ∈ clipHalf (fun p => f p.x) (ixX a) pts, lb ≤ q.y := by
  intro q hq
  rcases mem_clipHalf hq with ⟨hm, _⟩ | ⟨s, hs, e, he, hne, rfl⟩
  · exact h q hm
  · obtain ⟨hxne, hmin, hmax⟩ := hcross s.x e.x hne
    obtain ⟨ht0, ht1⟩ := div_t_bounds s.x e.x a hxne hmin hmax
    show lb ≤ s.y + (e.y - s.y) * ((a - s.x) / (e.x - s.x))
    nlinarith [h s hs, h e he,
      mul_nonneg (sub_nonneg.mpr (h s hs)) (sub_nonneg.mpr ht1),
      mul_nonneg (sub_nonneg.mpr (h e he)) ht0]

/- ### Shoelace vanishing lemmas -/

theorem shoelaceGo_const_x (a : ℚ) :
    ∀ (l : List Vector) (p0 p : Vector), p0.x = a → p.x = a →
      (∀ r ∈ l, r.x = a) → shoelaceGo p0 (p :: l) = a * (p0.y - p.y)
  | [], p0, p, h0, hp, _ => by
      show crossV p p0 = a * (p0.y - p.y)
      unfold crossV
      rw [h0, hp]
      ring
  | q :: rest, p0, p, h0, hp, hl => by
      have hq : q.x = a := hl q (List.mem_cons_self q rest)
      have IH := shoelaceGo_const_x a rest p0 q h0 hq
        (fun r hr => hl r (List.mem_cons_of_mem _ hr))
      show crossV p q + shoelaceGo p0 (q :: rest) = a * (p0.y - p.y)
      rw [IH]
      unfold crossV
      rw [hp, hq]
      ring

theorem shoelace_const_x (a : ℚ) (pts : List Vector)
    (h : ∀ p ∈ pts, p.x = a) : shoelace pts = 0 := by
  match pts with
  | [] => rfl
  | p :: rest =>
    show shoelaceGo p (p :: rest) = 0
    rw [shoelaceGo_const_x a rest p p (h p (List.mem_cons_self p rest))
      (h p (List.mem_cons_self p rest))
      (fun r hr => h r (List.mem_cons_of_mem _ hr))]
    ring

theorem shoelaceGo_const_y (b : ℚ) :
    ∀ (l : List Vector) (p0 p : Vector), p0.y = b → p.y = b →
      (∀ r ∈ l, r.y = b) → shoelaceGo p0 (p :: l) = b * (p.x - p0.x)
  | [], p0, p, h0, hp, _ => by
      show crossV p p0 = b * (p.x - p0.x)
      unfold crossV
      rw [h0, hp]
      ring
  | q :: rest, p0, p, h0, hp, hl => by
      have hq : q.y = b := hl q (List.mem_cons_self q rest)
      have IH := shoelaceGo_const_y b rest p0 q h0 hq
        (fun r hr => hl r (List.mem_cons_of_mem _ hr))
      show crossV p q + shoelaceGo p0 (q :: rest) = b * (p.x - p0.x)
      rw [IH]
      unfold crossV
      rw [hp, hq]
      ring

theorem shoelace_const_y (b : ℚ) (pts : List Vector)
    (h : ∀ p ∈ pts, p.y = b) : shoelace pts = 0 := by
  match pts with
  | [] => rfl
  | p :: rest =>
    show shoelaceGo p (p :: rest) = 0
    rw [shoelaceGo_const_y b rest p p (h p (List.mem_cons_self p rest))
      (h p (List.mem_cons_self p rest))
      (fun r hr => h r (List.mem_cons_of_mem _ hr))]
    ring

theorem shoelace_clip_zero_of_x_le (x0 y0 : ℚ) (pts : List Vector)
    (h : ∀ p ∈ pts, p.x ≤ x0) : shoelace (clipBox x0 y0 pts) = 0 := by
  have h1 := clip_const_x_low x0 pts h
  have h2 := clipX_pres_const_x (fun u => decide (u ≤ x0 + 1)) x0 (x0 + 1) _ h1
  have h3 := clipY_pres_const_x (fun p => decide (p.y ≤ y0 + 1)) (y0 + 1) x0 _ h2
  have h4 := clipY_pres_const_x (fun p => decide (y0 ≤ p.y)) y0 x0 _ h3
  exact shoelace_const_x x0 _ h4

theorem shoelace_clip_zero_of_x_ge (x0 y0 : ℚ) (pts : List Vector)
    (h : ∀ p ∈ pts, x0 + 1 ≤ p.x) : shoelace (clipBox x0 y0 pts) = 0 := by
  have h1 : ∀ q ∈ clipHalf (fun p => decide (x0 ≤ p.x)) (ixX x0) pts,
      x0 + 1 ≤ q.x := by
    intro q hq
    exact h q (clip_subset_of_all_inside
      (fun p hp => decide_eq_true (by linarith [h p hp])) q hq)
  have h2 := clip_const_x_high (x0 + 1) _ h1
  have h3 := clipY_pres_const_x (fun p => decide (p.y ≤ y0 + 1)) (y0 + 1)
    (x0 + 1) _ h2
  have h4 := clipY_pres_const_x (fun p => decide (y0 ≤ p.y)) y0 (x0 + 1) _ h3
  exact shoelace_const_x (x0 + 1) _ h4

theorem shoelace_clip_zero_of_y_le (x0 y0 : ℚ) (pts : List Vector)
    (h : ∀ p ∈ pts, p.y ≤ y0) : shoelace (clipBox x0 y0 pts) = 0 := by
  have h1 := clipX_pres_y_ub (fun u => decide (x0 ≤ u)) x0 y0 pts
    (cross_test_ge x0) h
  have h2 := clipX_pres_y_ub (fun u => decide (u ≤ x0 + 1)) (x0 + 1) y0 _
    (cross_test_le (x0 + 1)) h1
  have h3 : ∀ q ∈ clipHalf (fun p => decide (p.y ≤ y0 + 1)) (ixY (y0 + 1))
      (clipHalf (fun p => decide (p.x ≤ x0 + 1)) (ixX (x0 + 1))
        (clipHalf (fun p => decide (x0 ≤ p.x)) (ixX x0) pts)), q.y ≤ y0 := by
    intro q hq
    exact h2 q (clip_subset_of_all_inside
      (fun p hp => decide_eq_true (by linarith [h2 p hp])) q hq)
  have h4 := clip_const_y_low y0 _ h3
  exact shoelace_const_y y0 _ h4

theorem shoelace_clip_zero_of_y_ge (x0 y0 : ℚ) (pts : List Vector)
    (h : ∀ p ∈ pts, y0 + 1 ≤ p.y) : shoelace (clipBox x0 y0 pts) = 0 := by
  have h1 := clipX_pres_y_lb (fun u => decide (x0 ≤ u)) x0 (y0 + 1) pts
    (cross_test_ge x0) h
  have h2 := clipX_pres_y_lb (fun u => decide (u ≤ x0 + 1)) (x0 + 1) (y0 + 1) _
    (cross_test_le (x0 + 1)) h1
  have h3 := clip_const_y_high (y0 + 1) _ h2
  have h4 := clipY_pres_const_y (fun v => decide (y0 ≤ v)) y0 (y0 + 1) _ h3
  exact shoelace_const_y (y0 + 1) _ h4

theorem shoelace_clip_zero_of_const_x (a x0 y0 : ℚ) (pts : List Vector)
    (h : ∀ p ∈ pts, p.x = a) : shoelace (clipBox x0 y0 pts) = 0 := by
  have h1 := clipX_pres_const_x (fun u => decide (x0 ≤ u)) a x0 pts h
  have h2 := clipX_pres_const_x (fun u => decide (u ≤ x0 + 1)) a (x0 + 1) _ h1
  have h3 := clipY_pres_const_x (fun p => decide (p.y ≤ y0 + 1)) (y0 + 1) a _ h2
  have h4 := clipY_pres_const_x (fun p => decide (y0 ≤ p.y)) y0 a _ h3
  exact shoelace_const_x a _ h4

theorem shoelace_clip_zero_of_const_y (b x0 y0 : ℚ) (pts : List Vector)
    (h : ∀ p ∈ pts, p.y = b) : shoelace (clipBox x0 y0 pts) = 0 := by
  have h1 := clipX_pres_const_y (fun p => decide (x0 ≤ p.x)) x0 b pts h
  have h2 := clipX_pres_const_y (fun p => decide (p.x ≤ x0 + 1)) (x0 + 1) b _ h1
  have h3 := clipY_pres_const_y (fun v => decide (v ≤ y0 + 1)) (y0 + 1) b _ h2
  have h4 := clipY_pres_const_y (fun v => decide (y0 ≤ v)) y0 b _ h3
  exact shoelace_const_y b _ h4

/- ### Coverage vanishing and bounds correctness -/

theorem quantize_zero (rule : Fill) : quantize rule 0 = 0 := by
  cases rule <;> norm_num [quantize, qmod]

theorem quantize_windingArea_zero (polys : List (List Vector)) (rule : Fill)
    (x0 y0 : ℚ) (h : ∀ pts ∈ polys, shoelace (clipBox x0 y0 pts) = 0) :
    quantize rule (windingArea polys x0 y0) = 0 := by
  have hz : windingArea polys x0 y0 = 0 := by
    unfold windingArea
    rw [List.sum_eq_zero, zero_div]
    intro a ha
    obtain ⟨pts, hpts, rfl⟩ := List.mem_map.mp ha
    exact h pts hpts
  rw [hz]
  exact quantize_zero rule

theorem pointsOf_mem {polys : List (List Vector)} {pts : List Vector}
    {p : Vector} (hpts : pts ∈ polys) (hp : p ∈ pts) : p ∈ pointsOf polys :=
  List.mem_flatMap.mpr ⟨pts, hpts, hp⟩

theorem foldl_boundsStep_bounds :
    ∀ (l : List Vector) (acc : Bounds),
      ((l.foldl boundsStep acc).minx ≤ acc.minx ∧
       (l.foldl boundsStep acc).miny ≤ acc.miny ∧
       acc.maxx ≤ (l.foldl boundsStep acc).maxx ∧
       acc.maxy ≤ (l.foldl boundsStep acc).maxy) ∧
      ∀ p ∈ l, (l.foldl boundsStep acc).minx ≤ p.x ∧
        p.x ≤ (l.foldl boundsStep acc).maxx ∧
        (l.foldl boundsStep acc).miny ≤ p.y ∧
        p.y ≤ (l.foldl boundsStep acc).maxy
  | [], acc => ⟨⟨le_refl _, le_refl _, le_refl _, le_refl _⟩, by simp⟩
  | p :: rest, acc => by
      have IH := foldl_boundsStep_bounds rest (boundsStep acc p)
      obtain ⟨⟨h1, h2, h3, h4⟩, hmem⟩ := IH
      have hstep : rest.foldl boundsStep (boundsStep acc p)
          = (p :: rest).foldl boundsStep acc := rfl
      rw [hstep] at h1 h2 h3 h4 hmem
      refine ⟨⟨le_trans h1 (min_le_left _ _), le_trans h2 (min_le_left _ _),
        le_trans (le_max_left _ _) h3, le_trans (le_max_left _ _) h4⟩, ?_⟩
      intro r hr
      rcases List.mem_cons.mp hr with rfl | hr'
      · exact ⟨le_trans h1 (min_le_right _ _), le_trans (le_max_right _ _) h3,
          le_trans h2 (min_le_right _ _), le_trans (le_max_right _ _) h4⟩
      · exact hmem r hr'

theorem boundsOf_spec (polys : List (List Vector)) (b : Bounds)
    (hb : boundsOf polys = some b) :
    ∀ p ∈ pointsOf polys,
      b.minx ≤ p.x ∧ p.x ≤ b.maxx ∧ b.miny ≤ p.y ∧ p.y ≤ b.maxy := by
  unfold boundsOf at hb
  intro r hr
  match hpts : pointsOf polys with
  | [] => rw [hpts] at hr; exact absurd hr (List.not_mem_nil r)
  | p :: rest =>
      rw [hpts] at hb hr
      have hb' : rest.foldl boundsStep ⟨p.x, p.y, p.x, p.y⟩ = b :=
        Option.some.inj hb
      obtain ⟨⟨h1, h2, h3, h4⟩, hmem⟩ :=
        foldl_boundsStep_bounds rest ⟨p.x, p.y, p.x, p.y⟩
      rw [hb'] at h1 h2 h3 h4 hmem
      rcases List.mem_cons.mp hr with rfl | hr'
      · exact ⟨h1, h3, h2, h4⟩
      · exact hmem r hr'

theorem boundsOf_none_iff (polys : List (List Vector)) :
    boundsOf polys = none ↔ pointsOf polys = [] := by
  unfold boundsOf
  match hpts : pointsOf polys with
  | [] => simp
  | p :: rest => simp

/- ### Mask grid access -/

theorem maskPixel_renderBytes (polys : List (List Vector)) (rule : Fill)
    (l t : ℤ) (w h x y : ℕ) (hx : x < w) (hy : y < h) :
    maskPixel (renderBytes Format.Alpha polys rule l t w h) w x y
      = coverageAt polys rule (l + x) (t + y) := by
  unfold maskPixel renderBytes
  have hk : y * w + x < w * h := by
    calc y * w + x < y * w + w := by omega
    _ = (y + 1) * w := by ring
    _ ≤ h * w := Nat.mul_le_mul_right w (by omega)
    _ = w * h := Nat.mul_comm h w
  rw [List.getD_eq_getElem _ _ (by simpa using hk)]
  rw [List.getElem_map, List.getElem_range]
  have hmod : (y * w + x) % w = x := by
    rw [Nat.add_comm, Nat.add_mul_mod_self_right, Nat.mod_eq_of_lt hx]
  have hdiv : (y * w + x) / w = y := by
    rw [Nat.add_comm, Nat.add_mul_div_right _ _ (by omega : 0 < w),
      Nat.div_eq_of_lt hx, Nat.zero_add]
  rw [hmod, hdiv]

/- ### Pixel coverage vanishes outside the geometry's bounds -/

theorem coverageAt_zero_x_le (polys : List (List Vector)) (rule : Fill)
    (px py : ℤ) (h : ∀ p ∈ pointsOf polys, p.x ≤ (px : ℚ)) :
    coverageAt polys rule px py = 0 :=
  quantize_windingArea_zero _ _ _ _ fun pts hpts =>
    shoelace_clip_zero_of_x_le _ _ pts fun p hp => h p (pointsOf_mem hpts hp)

theorem coverageAt_zero_x_ge (polys : List (List Vector)) (rule : Fill)
    (px py : ℤ) (h : ∀ p ∈ pointsOf polys, (px : ℚ) + 1 ≤ p.x) :
    coverageAt polys rule px py = 0 :=
  quantize_windingArea_zero _ _ _ _ fun pts hpts =>
    shoelace_clip_zero_of_x_ge _ _ pts fun p hp => h p (pointsOf_mem hpts hp)

theorem coverageAt_zero_y_le (polys : List (List Vector)) (rule : Fill)
    (px py : ℤ) (h : ∀ p ∈ pointsOf polys, p.y ≤ (py : ℚ)) :
    coverageAt polys rule px py = 0 :=
  quantize_windingArea_zero _ _ _ _ fun pts hpts =>
    shoelace_clip_zero_of_y_le _ _ pts fun p hp => h p (pointsOf_mem hpts hp)

theorem coverageAt_zero_y_ge (polys : List (List Vector)) (rule : Fill)
    (px py : ℤ) (h : ∀ p ∈ pointsOf polys, (py : ℚ) + 1 ≤ p.y) :
    coverageAt polys rule px py = 0 :=
  quantize_windingArea_zero _ _ _ _ fun pts hpts =>
    shoelace_clip_zero_of_y_ge _ _ pts fun p hp => h p (pointsOf_mem hpts hp)

theorem coverageAt_zero_const_x (polys : List (List Vector)) (rule : Fill)
    (a : ℚ) (px py : ℤ) (h : ∀ p ∈ pointsOf polys, p.x = a) :
    coverageAt polys rule px py = 0 :=
  quantize_windingArea_zero _ _ _ _ fun pts hpts =>
    shoelace_clip_zero_of_const_x a _ _ pts fun p hp => h p (pointsOf_mem hpts hp)

theorem coverageAt_zero_const_y (polys : List (List Vector)) (rule : Fill)
    (b : ℚ) (px py : ℤ) (h : ∀ p ∈ pointsOf polys, p.y = b) :
    coverageAt polys rule px py = 0 :=
  quantize_windingArea_zero _ _ _ _ fun pts hpts =>
    shoelace_clip_zero_of_const_y b _ _ pts fun p hp => h p (pointsOf_mem hpts hp)

/- ### Rasterizer driver equations -/

theorem rasterize_none_none (fmt : Format) (polys : List (List Vector))
    (rule : Fill) (hb : boundsOf polys = none) :
    rasterize fmt polys rule none = ([], ⟨0, 0, 0, 0⟩) := by
  unfold rasterize
  rw [hb]

theorem rasterize_none_some (fmt : Format) (polys : List (List Vector))
    (rule : Fill) (b : Bounds) (hb : boundsOf polys = some b) :
    rasterize fmt polys rule none =
      if (⌈b.maxx⌉ - ⌊b.minx⌋).toNat = 0 ∨ (⌈b.maxy⌉ - ⌊b.miny⌋).toNat = 0
      then ([], ⟨0, 0, 0, 0⟩)
      else (renderBytes fmt polys rule ⌊b.minx⌋ ⌊b.miny⌋
              (⌈b.maxx⌉ - ⌊b.minx⌋).toNat (⌈b.maxy⌉ - ⌊b.miny⌋).toNat,
            ⟨⌊b.minx⌋, ⌊b.miny⌋, (⌈b.maxx⌉ - ⌊b.minx⌋).toNat,
             (⌈b.maxy⌉ - ⌊b.miny⌋).toNat⟩) := by
  unfold rasterize
  rw [hb]

/-- C4.  Placement correctness: rendering without an explicit size produces
a Placement whose offset is the origin of the tight integer bounding box of
the flattened styled geometry and whose dimensions are its extent; with an
explicit size the Placement offset is always `(0,0)` (geometry outside the
box is simply not emitted); and compositing the trimmed mask at its offset
into an untrimmed full-size render of the same path is pixel-identical —
every pixel of the full render inside the trimmed box carries the trimmed
mask's byte, and every pixel outside it has coverage zero. -/
theorem placement_composite_correct (cmds : List Command) (st : Style)
    (W H x y : ℕ) (hx : x < W) (hy : y < H) :
    (∀ b : Bounds, boundsOf (styledPolys st cmds) = some b →
      ¬((⌈b.maxx⌉ - ⌊b.minx⌋).toNat = 0 ∨ (⌈b.maxy⌉ - ⌊b.miny⌋).toNat = 0) →
      (rasterize Format.Alpha (styledPolys st cmds) (styleRule st) none).2
        = ⟨⌊b.minx⌋, ⌊b.miny⌋, (⌈b.maxx⌉ - ⌊b.minx⌋).toNat,
           (⌈b.maxy⌉ - ⌊b.miny⌋).toNat⟩) ∧
    (∀ w h : ℕ, (rasterize Format.Alpha (styledPolys st cmds) (styleRule st)
        (some (w, h))).2 = ⟨0, 0, w, h⟩) ∧
    (∀ tr : List ℕ × Placement,
      tr = rasterize Format.Alpha (styledPolys st cmds) (styleRule st) none →
      maskPixel (rasterize Format.Alpha (styledPolys st cmds) (styleRule st)
          (some (W, H))).1 W x y =
        if tr.2.left ≤ (x : ℤ) ∧ (x : ℤ) < tr.2.left + tr.2.width ∧
            tr.2.top ≤ (y : ℤ) ∧ (y : ℤ) < tr.2.top + tr.2.height
        then maskPixel tr.1 tr.2.width ((x : ℤ) - tr.2.left).toNat
          ((y : ℤ) - tr.2.top).toNat
        else 0) := by
  set polys := styledPolys st cmds with hpolys
  set rule := styleRule st with hrule
  refine ⟨?_, fun w h => rfl, ?_⟩
  · intro b hb hdeg
    rw [rasterize_none_some _ _ _ _ hb, if_neg hdeg]
  · intro tr htr
    have hL : maskPixel (rasterize Format.Alpha polys rule (some (W, H))).1
        W x y = coverageAt polys rule x y := by
      show maskPixel (renderBytes Format.Alpha polys rule 0 0 W H) W x y = _
      rw [maskPixel_renderBytes polys rule 0 0 W H x y hx hy]
      norm_num
    rw [hL]
    rcases hbo : boundsOf polys with _ | b
    · rw [rasterize_none_none _ _ _ hbo] at htr
      subst htr
      rw [if_neg (by dsimp only; omega)]
      have hpts : pointsOf polys = [] := (boundsOf_none_iff polys).mp hbo
      exact coverageAt_zero_x_le polys rule _ _
        (by rw [hpts]; intro p hp; exact absurd hp (List.not_mem_nil p))
    · rw [rasterize_none_some _ _ _ _ hbo] at htr
      by_cases hdeg : (⌈b.maxx⌉ - ⌊b.minx⌋).toNat = 0 ∨
          (⌈b.maxy⌉ - ⌊b.miny⌋).toNat = 0
      · rw [if_pos hdeg] at htr
        subst htr
        rw [if_neg (by dsimp only; omega)]
        rcases hdeg with hw | hh
        · have hle : ⌈b.maxx⌉ ≤ ⌊b.minx⌋ := by omega
          refine coverageAt_zero_const_x polys rule b.minx _ _ ?_
          intro p hp
          obtain ⟨h1, h2, _, _⟩ := boundsOf_spec polys b hbo p hp
          have hmm : b.maxx ≤ b.minx := le_trans (Int.le_ceil _)
            (le_trans (by exact_mod_cast hle) (Int.floor_le _))
          linarith
        · have hle : ⌈b.maxy⌉ ≤ ⌊b.miny⌋ := by omega
          refine coverageAt_zero_const_y polys rule b.miny _ _ ?_
          intro p hp
          obtain ⟨_, _, h3, h4⟩ := boundsOf_spec polys b hbo p hp
          have hmm : b.maxy ≤ b.miny := le_trans (Int.le_ceil _)
            (le_trans (by exact_mod_cast hle) (Int.floor_le _))
          linarith
      · rw [if_neg hdeg] at htr
        subst htr
        dsimp only
        have hwz : ((⌈b.maxx⌉ - ⌊b.minx⌋).toNat : ℤ) = ⌈b.maxx⌉ - ⌊b.minx⌋ := by
          omega
        have hhz : ((⌈b.maxy⌉ - ⌊b.miny⌋).toNat : ℤ) = ⌈b.maxy⌉ - ⌊b.miny⌋ := by
          omega
        by_cases hin : (⌊b.minx⌋ ≤ (x : ℤ) ∧
            (x : ℤ) < ⌊b.minx⌋ + ((⌈b.maxx⌉ - ⌊b.minx⌋).toNat : ℤ) ∧
            ⌊b.miny⌋ ≤ (y : ℤ) ∧
            (y : ℤ) < ⌊b.miny⌋ + ((⌈b.maxy⌉ - ⌊b.miny⌋).toNat : ℤ))
        · rw [if_pos hin]
          obtain ⟨hi1, hi2, hi3, hi4⟩ := hin
          have hxw : ((x : ℤ) - ⌊b.minx⌋).toNat < (⌈b.maxx⌉ - ⌊b.minx⌋).toNat
            := by omega
          have hyh : ((y : ℤ) - ⌊b.miny⌋).toNat < (⌈b.maxy⌉ - ⌊b.miny⌋).toNat
            := by omega
          rw [maskPixel_renderBytes polys rule _ _ _ _ _ _ hxw hyh]
          have e1 : ⌊b.minx⌋ + (((x : ℤ) - ⌊b.minx⌋).toNat : ℤ) = (x : ℤ) := by
            omega
          have e2 : ⌊b.miny⌋ + (((y : ℤ) - ⌊b.miny⌋).toNat : ℤ) = (y : ℤ) := by
            omega
          rw [e1, e2]
        · rw [if_neg hin]
          rcases lt_or_le (x : ℤ) ⌊b.minx⌋ with hxl | hxl
          · refine coverageAt_zero_x_ge polys rule _ _ ?_
            intro p hp
            have h1 := (boundsOf_spec polys b hbo p hp).1
            have hcast : ((x : ℤ) : ℚ) + 1 ≤ (⌊b.minx⌋ : ℚ) := by
              exact_mod_cast Int.add_one_le_of_lt hxl
            exact le_trans hcast (le_trans (Int.floor_le _) h1)
          · rcases le_or_lt (⌊b.minx⌋ + ((⌈b.maxx⌉ - ⌊b.minx⌋).toNat : ℤ))
                (x : ℤ) with hxr | hxr
            · refine coverageAt_zero_x_le polys rule _ _ ?_
              intro p hp
              obtain ⟨_, h2, _, _⟩ := boundsOf_spec polys b hbo p hp
              have hxc : (⌈b.maxx⌉ : ℤ) ≤ (x : ℤ) := by omega
              have hcast : (⌈b.maxx⌉ : ℚ) ≤ ((x : ℤ) : ℚ) := by
                exact_mod_cast hxc
              exact le_trans h2 (le_trans (Int.le_ceil _) hcast)
            · rcases lt_or_le (y : ℤ) ⌊b.miny⌋ with hyl | hyl
              · refine coverageAt_zero_y_ge polys rule _ _ ?_
                intro p hp
                have h3 := (boundsOf_spec polys b hbo p hp).2.2.1
                have hcast : ((y : ℤ) : ℚ) + 1 ≤ (⌊b.miny⌋ : ℚ) := by
                  exact_mod_cast Int.add_one_le_of_lt hyl
                exact le_trans hcast (le_trans (Int.floor_le _) h3)
              · rcases le_or_lt (⌊b.miny⌋ + ((⌈b.maxy⌉ - ⌊b.miny⌋).toNat : ℤ))
                    (y : ℤ) with hyr | hyr
                · refine coverageAt_zero_y_le polys rule _ _ ?_
                  intro p hp
                  have h4 := (boundsOf_spec polys b hbo p hp).2.2.2
                  have hyc : (⌈b.maxy⌉ : ℤ) ≤ (y : ℤ) := by omega
                  have hcast : (⌈b.maxy⌉ : ℚ) ≤ ((y : ℤ) : ℚ) := by
                    exact_mod_cast hyc
                  exact le_trans h4 (le_trans (Int.le_ceil _) hcast)
                · exact absurd ⟨hxl, hxr, hyl, hyr⟩ hin

/-- Witness for C4: the explicit-size placement projection instantiated on a
concrete path, style, size and pixel. -/
theorem placement_composite_correct_witness :
    (0 : ℕ) < 1 ∧
    (rasterize Format.Alpha
      (styledPolys (Style.fill Fill.NonZero) [Command.MoveTo ⟨0, 0⟩])
      (styleRule (Style.fill Fill.NonZero)) (some (3, 2))).2 = ⟨0, 0, 3, 2⟩ :=
  ⟨by decide,
    (placement_composite_correct [Command.MoveTo ⟨0, 0⟩]
      (Style.fill Fill.NonZero) 1 1 0 0 (by decide) (by decide)).2.1 3 2⟩

end Zeno
